import Mathlib

/-!
Verification development for `dr_conversion_compare.py`.

The program sweeps an external simulator (SLiM) over a gRNA-count range,
parses its textual output, averages a transformed rate, and compares two
configurations.  This file gives a shallow embedding of the sweep,
parsing and command-building logic and proves the specified properties.

Modelling conventions:
* Python `str` is Lean `String`; character-level work is done on `.data`
  (a `List Char`) with structural recursion so everything evaluates.
* Python `dict` (insertion-ordered, distinct keys) is an association
  list `Dict := List (String × PyValue)`; `dictSet` mirrors Python item
  assignment (update in place, else append), `dictGet` mirrors lookup.
* Python floats are idealised as exact rationals `ℚ`.  Every concrete
  number the claims mention (0.5, 1.0, means of 20 equal values) is
  computed exactly by IEEE doubles as well, so the idealisation is
  faithful at those points.
* The external process (`run_slim`, a `subprocess` call) is an oracle
  `ℕ → List String → String` giving the captured stdout of the i-th
  invocation with the given argv; exceptions are `Except`/`Option`.
-/

/-- Python's whitespace characters, as used by `str.split()` with no
argument. -/
def pyIsSpace (c : Char) : Bool :=
  c = ' ' || c = '\t' || c = '\n' || c = '\r' || c = '\x0b' || c = '\x0c'

/-- `str.split('\n')`: split at every newline, keeping empty pieces
(`"".split('\n') == [""]`). -/
def splitLines : List Char → List (List Char)
  | [] => [[]]
  | c :: rest =>
    if c = '\n' then [] :: splitLines rest
    else
      match splitLines rest with
      | l :: ls => (c :: l) :: ls
      | [] => [[c]]

/-- Worker for `pyWords`: `acc` holds the reversed current word. -/
def pyWordsAux : List Char → List Char → List (List Char)
  | [], acc => if acc.isEmpty then [] else [acc.reverse]
  | c :: cs, acc =>
    if pyIsSpace c then
      if acc.isEmpty then pyWordsAux cs [] else acc.reverse :: pyWordsAux cs []
    else pyWordsAux cs (c :: acc)

/-- `str.split()` with no argument: split on runs of whitespace,
discarding empty strings. -/
def pyWords (cs : List Char) : List (List Char) := pyWordsAux cs []

/-- The sentinel the parser scans for (`"PYTHON:: "`, line 73). -/
def markerString : String := "PYTHON:: "

/-- The sentinel as a character list. -/
def markerChars : List Char := markerString.data

/-- The two ways `parse_slim` can raise: `indexError` models the Python
`IndexError` from `spaced_line[7]` on a short marker line, and
`unboundLocal` models the `UnboundLocalError` raised at `return dr_rate`
when no marker line was ever seen. -/
inductive ParseSlimError where
  | indexError
  | unboundLocal
deriving DecidableEq, Repr

/-- The `for line in lines` loop of `parse_slim` (lines 72–75): `dr` is
the current value of the local `dr_rate` (`none` = still unbound). -/
def parseSlimLoop : List (List Char) → Option (List Char) →
    Except ParseSlimError (Option (List Char))
  | [], dr => .ok dr
  | line :: rest, dr =>
    if markerChars.isPrefixOf line then
      match (pyWords line)[7]? with
      | some t => parseSlimLoop rest (some t)
      | none => .error .indexError
    else parseSlimLoop rest dr

/-- Embedding of `parse_slim` (lines 63–77): split the captured SLiM
output on newlines, remember token index 7 of each line starting with
`"PYTHON:: "`, and return the last one; raise if a marker line is too
short, or if the local was never bound. -/
def parse_slim (slim_string : String) : Except ParseSlimError String :=
  match parseSlimLoop (splitLines slim_string.data) none with
  | .error e => .error e
  | .ok none => .error .unboundLocal
  | .ok (some t) => .ok (String.mk t)

instance {ε α : Type _} [DecidableEq ε] [DecidableEq α] : DecidableEq (Except ε α)
  | .error e, .error f =>
    if h : e = f then .isTrue (by rw [h]) else .isFalse (by intro hc; cases hc; exact h rfl)
  | .error _, .ok _ => .isFalse (by intro hc; cases hc)
  | .ok _, .error _ => .isFalse (by intro hc; cases hc)
  | .ok a, .ok b =>
    if h : a = b then .isTrue (by rw [h]) else .isFalse (by intro hc; cases hc; exact h rfl)

def exampleMarkerText : String := "PYTHON:: a b c d e f g 0.73 h"

def exampleNoMarkerText : String := "hello\nworld"

/-- A Python value as it occurs in the parameter dictionaries: `bool` is
kept apart from `int` because `configure_slim_command_line` dispatches on
`isinstance(·, bool)` first. -/
inductive PyValue where
  | bool (b : Bool)
  | int (n : ℤ)
  | float (q : ℚ)
  | str (s : String)
deriving DecidableEq, Repr

/-- A Python `dict` keyed by strings: an insertion-ordered association
list whose keys are distinct. -/
abbrev Dict := List (String × PyValue)

/-- Python `d[k]` read (first matching key). -/
def dictGet : Dict → String → Option PyValue
  | [], _ => none
  | p :: rest, k => if p.1 = k then some p.2 else dictGet rest k

/-- Python `k in d`. -/
def dictContains (d : Dict) (k : String) : Bool :=
  d.any (fun p => p.1 == k)

/-- Python `d[k] = v`: overwrite in place when the key exists (keeping
its position), otherwise append at the end. -/
def dictSet (d : Dict) (k : String) (v : PyValue) : Dict :=
  if dictContains d k then d.map (fun p => if p.1 == k then (k, v) else p)
  else d ++ [(k, v)]

def strEmpty : String := ""

def strSpace : String := " "

def strDot : String := "."

def strMinus : String := "-"

def strZero : String := "0"

def strT : String := "T"

def strF : String := "F"

def strPyTrue : String := "True"

def strPyFalse : String := "False"

def strSlimSpace : String := "slim "

def strDashDSpace : String := "-d "

def strEq : String := "="

def sourceKey : String := "source"

def numGrnasKey : String := "NUM_GRNAS"

/-- Decimal digits of the proper fraction `num/den` (with `num < den`),
most significant first; the fuel bounds the number of digits and is
ample for every value occurring in the program. -/
def ratFracDigits : ℕ → ℕ → ℕ → String
  | 0, _, _ => strEmpty
  | _, 0, _ => strEmpty
  | fuel + 1, num, den =>
    Nat.repr (num * 10 / den) ++ ratFracDigits fuel (num * 10 % den) den

/-- Best-effort decimal rendering of a rational, standing in for Python
`str(float)` (which prints the shortest decimal denoting the double;
for the terminating decimals used by this program the two agree). -/
def ratPyStr (q : ℚ) : String :=
  let sign := if q < 0 then strMinus else strEmpty
  let n := q.num.natAbs
  let frac := ratFracDigits 60 (n % q.den) q.den
  sign ++ Nat.repr (n / q.den) ++ strDot ++ (if frac = strEmpty then strZero else frac)

/-- Python `str(v)` for the value types above. -/
def pyStr : PyValue → String
  | .bool b => if b then strPyTrue else strPyFalse
  | .int n => toString n
  | .float q => ratPyStr q
  | .str s => s

/-- How `configure_slim_command_line` renders one value inside
`f"-d {arg}={...}"`: `'T' if v else 'F'` for booleans, `str(v)`
otherwise (lines 108–111). -/
def renderArgValue : PyValue → String
  | .bool b => if b then strT else strF
  | v => pyStr v

/-- One iteration of the building loop: the text appended for a
non-source entry, `f"-d {arg}={value} "`. -/
def argChunk (k : String) (v : PyValue) : String :=
  strDashDSpace ++ k ++ strEq ++ renderArgValue v ++ strSpace

/-- The whole `for arg in args_dict` loop (lines 105–111): entries are
visited in insertion order and the `"source"` key is skipped. -/
def argChunks : Dict → String
  | [] => strEmpty
  | (k, v) :: rest => (if k = sourceKey then strEmpty else argChunk k v) ++ argChunks rest

/-- Embedding of `configure_slim_command_line` (lines 95–114): build the
command string `"slim " + chunks + source` and split it on whitespace.
`none` models the `KeyError` when `"source"` is absent (line 104) and
the `TypeError` of `clargs += source` when it is not a string. -/
def configure_slim_command_line (d : Dict) : Option (List String) :=
  match dictGet d sourceKey with
  | some (.str source) =>
    some ((pyWords (strSlimSpace ++ argChunks d ++ source).data).map String.mk)
  | _ => none

def srcFile : String := "f.slim"

def keyCapacity : String := "CAPACITY"

def keyFoo : String := "FOO"

def dGood : Dict := [(sourceKey, .str srcFile), (keyCapacity, .int 50000000), (keyFoo, .bool true)]

example : configure_slim_command_line dGood =
    some [r"slim", r"-d", r"CAPACITY=50000000", r"-d", r"FOO=T", r"f.slim"] := by decide

def dBadSource : String := "my file.slim"

def dBad : Dict := [(sourceKey, .str dBadSource)]

/-- Numeric value of a digit string, most significant first. -/
def digitsValAux : List Char → ℕ → ℕ
  | [], acc => acc
  | c :: cs, acc => digitsValAux cs (acc * 10 + (c.toNat - Char.toNat '0'))

/-- Core of Python `float(str)` on an already-stripped character list:
optional sign, then either digits, or digits with one decimal point
(at least one digit overall).  Exponents, `inf` and `nan` are accepted
by Python but never produced by this program's data, so they are left
out of the model. -/
def pyFloatCore (cs : List Char) : Option ℚ :=
  let signed : Bool × List Char :=
    match cs with
    | c :: rest =>
      if c = '-' then (true, rest) else if c = '+' then (false, rest) else (false, cs)
    | [] => (false, [])
  let ip := signed.2.takeWhile Char.isDigit
  let rest := signed.2.dropWhile Char.isDigit
  let body : Option ℚ :=
    match rest with
    | [] => if ip.isEmpty then none else some ((digitsValAux ip 0 : ℚ))
    | c :: fr =>
      if c = '.' && fr.all Char.isDigit && (!ip.isEmpty || !fr.isEmpty) then
        some ((digitsValAux ip 0 : ℚ) + (digitsValAux fr 0 : ℚ) / (10 : ℚ) ^ fr.length)
      else none
  body.map (fun q => if signed.1 then -q else q)

/-- Python `float(s)` (idealised to an exact rational): strip
surrounding whitespace, then parse; `none` models `ValueError`. -/
def pyFloat (s : String) : Option ℚ :=
  pyFloatCore (((s.data.dropWhile pyIsSpace).reverse.dropWhile pyIsSpace).reverse)

def str075 : String := "0.75"

example : pyFloat str075 = some (3 / 4) := by with_unfolding_all rfl

example : pyFloat (String.mk ['g']) = none := by decide

/-- The linear transform of line 136:
`drive_conversion = (slim_result - 0.5) / 0.5`. -/
def drive_conversion_transform (slim_result : ℚ) : ℚ :=
  (slim_result - 0.5) / 0.5

/-- Embedding of `calculate_average` (lines 54–61): sum over length for
a non-empty list, `0` for the empty list. -/
def calculate_average (nums : List ℚ) : ℚ :=
  let total := nums.sum
  let count := nums.length
  if count > 0 then total / (count : ℚ) else 0

/-- The exceptions `collect_data` can propagate: a failure inside
`configure_slim_command_line` (`KeyError`/`TypeError`), one raised by
`parse_slim`, or the `ValueError` of `float(parsed_result)`. -/
inductive SimErr where
  | configError
  | parseError (e : ParseSlimError)
  | valueError
deriving DecidableEq, Repr

/-- Everything observable about one `collect_data` call: the returned
list of means, the trace of process-runner invocations (sweep value and
argv of each, in order), the `drive_conversions` list averaged at each
sweep point, and the final state of the mutated `args_dict`. -/
structure CollectResult where
  results : List ℚ
  runs : List (ℤ × List String)
  inner : List (List ℚ)
  final : Dict
deriving DecidableEq, Repr

/-- The inner `for i in range(total_runs)` loop of `collect_data`
(lines 130–137): `oracle i argv` is the stdout of the `i`-th process
invocation of this `collect_data` call; returns the accumulated
`drive_conversions` together with the argv of each invocation. -/
def innerLoop (oracle : ℕ → List String → String) (d : Dict) :
    ℕ → ℕ → Except SimErr (List ℚ × List (List String))
  | _, 0 => .ok ([], [])
  | i, Nat.succ k =>
    match configure_slim_command_line d with
    | none => .error .configError
    | some clargs =>
      match parse_slim (oracle i clargs) with
      | .error e => .error (.parseError e)
      | .ok parsed =>
        match pyFloat parsed with
        | none => .error .valueError
        | some slim_result =>
          match innerLoop oracle d (i + 1) k with
          | .error e => .error e
          | .ok (dcs, tr) =>
            .ok (drive_conversion_transform slim_result :: dcs, clargs :: tr)

/-- The outer `for num_grnas in range(1, 13)` loop of `collect_data`
(lines 125–138): sets `args_dict['NUM_GRNAS']`, runs the inner loop 20
times, appends the average.  `i` is the index of the next process
invocation. -/
def outerLoop (oracle : ℕ → List String → String) :
    ℕ → Dict → List ℤ → Except SimErr CollectResult
  | _, d, [] => .ok ⟨[], [], [], d⟩
  | i, d, n :: ns =>
    match innerLoop oracle (dictSet d numGrnasKey (.int n)) i 20 with
    | .error e => .error e
    | .ok (dcs, tr) =>
      match outerLoop oracle (i + 20) (dictSet d numGrnasKey (.int n)) ns with
      | .error e => .error e
      | .ok rest =>
        .ok ⟨calculate_average dcs :: rest.results,
             tr.map (fun c => (n, c)) ++ rest.runs,
             dcs :: rest.inner,
             rest.final⟩

/-- The sweep points `range(1, 13)` of line 125. -/
def sweepPoints : List ℤ := (List.range' 1 12).map (fun n => (n : ℤ))

example : sweepPoints = [1, 2, 3, 4, 5, 6, 7, 8, 9, 10, 11, 12] := by decide

/-- Embedding of `collect_data` (lines 116–140) over an oracle for the
external process. -/
def collect_data (oracle : ℕ → List String → String) (d : Dict) :
    Except SimErr CollectResult :=
  outerLoop oracle 0 d sweepPoints

def stubOut : String := "PYTHON:: 1 2 3 4 5 6 0.75"

/-- A stubbed process runner whose every invocation prints the same
marker line, with `0.75` in field 7. -/
def oracleConst : ℕ → List String → String := fun _ _ => stubOut

def dSourceOnly : Dict := [(sourceKey, .str srcFile)]

def strSlim : String := "slim"

def strDashD : String := "-d"

/-- The argv produced for `dSourceOnly` at sweep value `n`. -/
def clargsConst (n : ℤ) : List String :=
  [strSlim, strDashD, numGrnasKey ++ strEq ++ toString n, srcFile]

/-- The exact outcome of `collect_data` on the constant stub. -/
def collectConstResult : CollectResult :=
  ⟨List.replicate 12 (1 / 2 : ℚ),
   sweepPoints.flatMap (fun n => List.replicate 20 (n, clargsConst n)),
   List.replicate 12 (List.replicate 20 (1 / 2 : ℚ)),
   [(sourceKey, .str srcFile), (numGrnasKey, .int 12)]⟩

/-- The outcome of `collect_data` on the constant stub, computed by the
kernel; shared by the witnesses below. -/
lemma collectConstEval : collect_data oracleConst dSourceOnly = .ok collectConstResult := by
  with_unfolding_all rfl

/-- A string none of whose characters is Python whitespace. -/
def NoWs (s : String) : Prop := ∀ c ∈ s.data, pyIsSpace c = false

instance (s : String) : Decidable (NoWs s) := by
  unfold NoWs; infer_instance

lemma mk_data (s : String) : String.mk s.data = s := rfl

lemma data_append (a b : String) : (a ++ b).data = a.data ++ b.data := rfl

/-- Splitting at a space concatenates the word lists of the two sides. -/
lemma pyWordsAux_append_space (a : List Char) :
    ∀ (acc b : List Char),
      pyWordsAux (a ++ ' ' :: b) acc = pyWordsAux a acc ++ pyWords b := by
  induction a with
  | nil =>
    intro acc b
    simp only [List.nil_append, pyWordsAux, pyWords]
    have hsp : pyIsSpace ' ' = true := by decide
    rw [hsp]
    by_cases h : acc.isEmpty <;> simp [h, pyWordsAux]
  | cons c cs ih =>
    intro acc b
    simp only [List.cons_append, pyWordsAux]
    by_cases hsp : pyIsSpace c
    · rw [if_pos hsp, if_pos hsp]
      by_cases h : acc.isEmpty <;> simp [h, ih]
    · rw [if_neg hsp, if_neg hsp]
      exact ih (c :: acc) b

lemma pyWords_append_space (a b : List Char) :
    pyWords (a ++ ' ' :: b) = pyWords a ++ pyWords b :=
  pyWordsAux_append_space a [] b

/-- A non-empty run of non-whitespace characters is a single word. -/
lemma pyWordsAux_no_space (w : List Char) :
    ∀ acc : List Char, (∀ c ∈ w, pyIsSpace c = false) →
      pyWordsAux w acc =
        if (acc.reverse ++ w).isEmpty then [] else [acc.reverse ++ w] := by
  induction w with
  | nil =>
    intro acc _
    simp [pyWordsAux, List.isEmpty_iff]
  | cons c cs ih =>
    intro acc h
    have hc : pyIsSpace c = false := h c (List.mem_cons_self c cs)
    simp only [pyWordsAux, hc, Bool.false_eq_true, if_false]
    rw [ih (c :: acc) (fun x hx => h x (List.mem_cons_of_mem c hx))]
    have hne : (acc.reverse ++ c :: cs).isEmpty = false := by
      simp [List.isEmpty_iff]
    have hne' : ((c :: acc).reverse ++ cs).isEmpty = false := by
      simp [List.isEmpty_iff]
    rw [hne, hne']
    simp

lemma pyWords_single (w : List Char) (hne : w ≠ [])
    (h : ∀ c ∈ w, pyIsSpace c = false) : pyWords w = [w] := by
  unfold pyWords
  rw [pyWordsAux_no_space w [] h]
  simp [List.isEmpty_iff, hne]

/-- When `k` is absent every stored key differs from `k`. -/
lemma not_contains_keys {d : Dict} {k : String} (h : dictContains d k = false) :
    ∀ p ∈ d, p.1 ≠ k := by
  intro p hp
  unfold dictContains at h
  rw [List.any_eq_false] at h
  have := h p hp
  simpa using this

lemma contains_get_isSome {d : Dict} {k : String} (h : dictContains d k = true) :
    (dictGet d k).isSome := by
  induction d with
  | nil => simp [dictContains] at h
  | cons p rest ih =>
    unfold dictContains at h
    simp only [List.any_cons, Bool.or_eq_true] at h
    by_cases hk : p.1 = k
    · simp [dictGet, hk]
    · have : dictContains rest k = true := by
        rcases h with h | h
        · exact absurd (by simpa using h) hk
        · simpa [dictContains] using h
      simp only [dictGet, hk, if_false]
      exact ih this

lemma dictSet_eq_map {d : Dict} {k : String} (h : dictContains d k = true) (v : PyValue) :
    dictSet d k v = d.map (fun p => if p.1 == k then (k, v) else p) := by
  unfold dictSet
  rw [if_pos h]

lemma dictSet_eq_append {d : Dict} {k : String} (h : dictContains d k = false) (v : PyValue) :
    dictSet d k v = d ++ [(k, v)] := by
  unfold dictSet
  rw [if_neg (by simp [h])]

/-- Setting a key makes it present. -/
lemma contains_dictSet (d : Dict) (k : String) (v : PyValue) :
    dictContains (dictSet d k v) k = true := by
  by_cases h : dictContains d k = true
  · rw [dictSet_eq_map h v]
    unfold dictContains at h ⊢
    rw [List.any_eq_true] at h ⊢
    obtain ⟨p, hp, hk⟩ := h
    refine ⟨(k, v), List.mem_map.2 ⟨p, hp, ?_⟩, by simp⟩
    simp only [hk, if_true]
  · have hf : dictContains d k = false := by simpa using h
    rw [dictSet_eq_append hf v]
    unfold dictContains
    rw [List.any_eq_true]
    exact ⟨(k, v), by simp, by simp⟩

/-- Two successive writes of the same key collapse to the second. -/
lemma dictSet_dictSet (d : Dict) (k : String) (v w : PyValue) :
    dictSet (dictSet d k v) k w = dictSet d k w := by
  by_cases h : dictContains d k = true
  · have h2 : dictContains (d.map (fun p => if p.1 == k then (k, v) else p)) k = true := by
      rw [← dictSet_eq_map h v]
      exact contains_dictSet d k v
    rw [dictSet_eq_map h v, dictSet_eq_map h2 w, dictSet_eq_map h w, List.map_map]
    apply List.map_congr_left
    intro p _
    by_cases hk : p.1 = k <;> simp [Function.comp, hk]
  · have hf : dictContains d k = false := by simpa using h
    have h2 : dictContains (d ++ [(k, v)]) k = true := by
      rw [← dictSet_eq_append hf v]
      exact contains_dictSet d k v
    rw [dictSet_eq_append hf v, dictSet_eq_map h2 w, dictSet_eq_append hf w, List.map_append]
    congr 1
    · conv_rhs => rw [← List.map_id d]
      apply List.map_congr_left
      intro p hp
      have hne : p.1 ≠ k := not_contains_keys hf p hp
      simp [hne]
    · simp

lemma dictGet_map_replace {k : String} (v : PyValue) :
    ∀ d : Dict, dictContains d k = true →
      dictGet (d.map (fun p => if p.1 == k then (k, v) else p)) k = some v := by
  intro d
  induction d with
  | nil => intro h; simp [dictContains] at h
  | cons p rest ih =>
    intro h
    by_cases hk : p.1 = k
    · simp [dictGet, hk]
    · have hrest : dictContains rest k = true := by
        unfold dictContains at h
        simp only [List.any_cons, Bool.or_eq_true] at h
        rcases h with h | h
        · exact absurd (by simpa using h) hk
        · simpa [dictContains] using h
      simp only [List.map_cons]
      rw [show (if p.1 == k then (k, v) else p) = p by simp [hk]]
      simp only [dictGet, hk, if_false]
      exact ih hrest

lemma dictGet_map_replace_ne {k k' : String} (v : PyValue) (hne : k' ≠ k) :
    ∀ d : Dict, dictGet (d.map (fun p => if p.1 == k then (k, v) else p)) k' = dictGet d k' := by
  intro d
  induction d with
  | nil => rfl
  | cons p rest ih =>
    simp only [List.map_cons]
    by_cases hk : p.1 = k
    · rw [show (if p.1 == k then (k, v) else p) = (k, v) by simp [hk]]
      have h1 : ¬ k = k' := fun h => hne h.symm
      have h2 : ¬ p.1 = k' := by rw [hk]; exact h1
      simp only [dictGet]
      rw [if_neg h1, if_neg h2]
      exact ih
    · rw [show (if p.1 == k then (k, v) else p) = p by simp [hk]]
      simp only [dictGet]
      by_cases hk' : p.1 = k'
      · rw [if_pos hk', if_pos hk']
      · rw [if_neg hk', if_neg hk']
        exact ih

lemma dictGet_append_single_same {k : String} (v : PyValue) :
    ∀ d : Dict, (∀ p ∈ d, p.1 ≠ k) → dictGet (d ++ [(k, v)]) k = some v := by
  intro d
  induction d with
  | nil => simp [dictGet]
  | cons p rest ih =>
    intro h
    have hp : ¬ p.1 = k := h p (List.mem_cons_self p rest)
    simp only [List.cons_append, dictGet]
    rw [if_neg hp]
    exact ih (fun q hq => h q (List.mem_cons_of_mem p hq))

lemma dictGet_append_single_ne {k k' : String} (v : PyValue) (hne : k' ≠ k) :
    ∀ d : Dict, dictGet (d ++ [(k, v)]) k' = dictGet d k' := by
  intro d
  induction d with
  | nil =>
    simp only [List.nil_append, dictGet]
    rw [if_neg (fun h => hne h.symm)]
  | cons p rest ih =>
    simp only [List.cons_append, dictGet]
    by_cases hk' : p.1 = k'
    · rw [if_pos hk', if_pos hk']
    · rw [if_neg hk', if_neg hk']
      exact ih

lemma dictGet_dictSet_same (d : Dict) (k : String) (v : PyValue) :
    dictGet (dictSet d k v) k = some v := by
  by_cases h : dictContains d k = true
  · rw [dictSet_eq_map h v]
    exact dictGet_map_replace v d h
  · have hf : dictContains d k = false := by simpa using h
    rw [dictSet_eq_append hf v]
    exact dictGet_append_single_same v d (not_contains_keys hf)

lemma dictGet_dictSet_ne (d : Dict) {k k' : String} (v : PyValue) (hne : k' ≠ k) :
    dictGet (dictSet d k v) k' = dictGet d k' := by
  by_cases h : dictContains d k = true
  · rw [dictSet_eq_map h v]
    exact dictGet_map_replace_ne v hne d
  · have hf : dictContains d k = false := by simpa using h
    rw [dictSet_eq_append hf v]
    exact dictGet_append_single_ne v hne d

/-- The entries the builder loop does not skip, in order. -/
def nonSourceEntries (d : Dict) : Dict := d.filter (fun p => p.1 != sourceKey)

/-- The two argv tokens one non-source entry contributes. -/
def entryTokens (p : String × PyValue) : List String :=
  [strDashD, p.1 ++ strEq ++ renderArgValue p.2]

/-- Character-level form of one entry's `NAME=VALUE` token. -/
def entryKV (p : String × PyValue) : List Char :=
  p.1.data ++ '=' :: (renderArgValue p.2).data

lemma entryKV_ne_nil (p : String × PyValue) : entryKV p ≠ [] := by
  unfold entryKV
  intro h
  rcases List.append_eq_nil.1 h with ⟨_, h2⟩
  exact List.cons_ne_nil _ _ h2

lemma pyWords_entryKV {p : String × PyValue} (h1 : NoWs p.1)
    (h2 : NoWs (renderArgValue p.2)) : pyWords (entryKV p) = [entryKV p] := by
  apply pyWords_single _ (entryKV_ne_nil p)
  intro c hc
  unfold entryKV at hc
  rcases List.mem_append.1 hc with hc | hc
  · exact h1 c hc
  · rcases List.mem_cons.1 hc with hc | hc
    · rw [hc]; decide
    · exact h2 c hc

/-- The split of `argChunks d + source`: two tokens per kept entry, then
the source as the final token. -/
lemma argChunks_words (src : List Char) (hne : src ≠ [])
    (hsrc : ∀ c ∈ src, pyIsSpace c = false) :
    ∀ d : Dict,
      (∀ p ∈ d, p.1 ≠ sourceKey → NoWs p.1 ∧ NoWs (renderArgValue p.2)) →
      pyWords ((argChunks d).data ++ src) =
        (nonSourceEntries d).flatMap (fun p => [strDashD.data, entryKV p]) ++ [src] := by
  intro d
  induction d with
  | nil =>
    intro _
    have h0 : (argChunks []).data = [] := rfl
    rw [h0, List.nil_append, pyWords_single src hne hsrc]
    rfl
  | cons p rest ih =>
    intro hall
    have hrest : ∀ q ∈ rest, q.1 ≠ sourceKey → NoWs q.1 ∧ NoWs (renderArgValue q.2) :=
      fun q hq => hall q (List.mem_cons_of_mem p hq)
    by_cases hk : p.1 = sourceKey
    · have hchunk : (argChunks (p :: rest)).data = (argChunks rest).data := by
        show ((if p.1 = sourceKey then strEmpty else argChunk p.1 p.2) ++ argChunks rest).data = _
        rw [if_pos hk]
        rfl
      have hfilter : nonSourceEntries (p :: rest) = nonSourceEntries rest := by
        unfold nonSourceEntries
        rw [List.filter_cons_of_neg (by simp [hk])]
      rw [hchunk, hfilter]
      exact ih hrest
    · obtain ⟨hkws, hvws⟩ := hall p (List.mem_cons_self p rest) hk
      have hchunk : (argChunks (p :: rest)).data ++ src =
          ['-', 'd'] ++ ' ' :: (entryKV p ++ ' ' :: ((argChunks rest).data ++ src)) := by
        show ((if p.1 = sourceKey then strEmpty else argChunk p.1 p.2) ++ argChunks rest).data ++ src = _
        rw [if_neg hk]
        unfold argChunk entryKV
        have hd1 : strDashDSpace.data = ['-', 'd', ' '] := rfl
        have hd2 : strEq.data = ['='] := rfl
        have hd3 : strSpace.data = [' '] := rfl
        simp only [data_append, hd1, hd2, hd3, List.append_assoc, List.cons_append,
          List.nil_append]
      have hfilter : nonSourceEntries (p :: rest) = p :: nonSourceEntries rest := by
        unfold nonSourceEntries
        rw [List.filter_cons_of_pos (by simp [hk])]
      rw [hchunk, pyWords_append_space, pyWords_append_space, hfilter]
      rw [pyWords_entryKV hkws hvws, ih hrest]
      have hdd : pyWords ['-', 'd'] = [['-', 'd']] := by decide
      rw [hdd]
      rfl

lemma entryTokens_length : ∀ es : Dict, (es.flatMap entryTokens).length = 2 * es.length := by
  intro es
  induction es with
  | nil => rfl
  | cons p rest ih =>
    simp only [List.flatMap_cons, List.length_append, List.length_cons, ih]
    simp [entryTokens]
    ring

lemma mk_entryKV (p : String × PyValue) :
    String.mk (entryKV p) = p.1 ++ strEq ++ renderArgValue p.2 := by
  have h : (p.1 ++ strEq ++ renderArgValue p.2).data = entryKV p := by
    unfold entryKV
    have he : strEq.data = ['='] := rfl
    simp [data_append, he]
  rw [← h, mk_data]

lemma map_mk_tokens : ∀ es : Dict,
    (es.flatMap (fun p => [strDashD.data, entryKV p])).map String.mk =
      es.flatMap entryTokens := by
  intro es
  induction es with
  | nil => rfl
  | cons p rest ih =>
    simp only [List.flatMap_cons, List.map_append, ih]
    congr 1
    simp only [List.map_cons, List.map_nil, entryTokens]
    rw [mk_data, mk_entryKV]

/-- The token list produced by the Command Builder under the whitespace
hypotheses: `slim`, then `-d` / `NAME=VALUE` per kept entry, then the
source path. -/
lemma configure_eq_tokens (d : Dict) (src : String)
    (hsrc : dictGet d sourceKey = some (.str src)) (hne : src.data ≠ [])
    (hws : NoWs src)
    (hentries : ∀ p ∈ d, p.1 ≠ sourceKey → NoWs p.1 ∧ NoWs (renderArgValue p.2)) :
    configure_slim_command_line d =
      some (strSlim :: ((nonSourceEntries d).flatMap entryTokens ++ [src])) := by
  simp only [configure_slim_command_line, hsrc]
  have hsplit : (strSlimSpace ++ argChunks d ++ src).data =
      strSlim.data ++ ' ' :: ((argChunks d).data ++ src.data) := by
    have h1 : strSlimSpace.data = ['s', 'l', 'i', 'm', ' '] := rfl
    have h2 : strSlim.data = ['s', 'l', 'i', 'm'] := rfl
    simp only [data_append, h1, h2, List.append_assoc, List.cons_append, List.nil_append]
  rw [hsplit, pyWords_append_space,
    pyWords_single strSlim.data (by decide) (by decide),
    argChunks_words src.data hne hws d hentries]
  simp only [List.cons_append, List.nil_append, List.map_cons, List.map_append, mk_data,
    map_mk_tokens, List.map_nil]

lemma calculate_average_nonempty (l : List ℚ) (h : l ≠ []) :
    calculate_average l = l.sum / (l.length : ℚ) := by
  unfold calculate_average
  rw [if_pos (List.length_pos.2 h)]

lemma calculate_average_replicate (k : ℕ) (hk : 0 < k) (t : ℚ) :
    calculate_average (List.replicate k t) = t := by
  have hne : List.replicate k t ≠ [] := by
    apply List.ne_nil_of_length_pos
    simpa using hk
  rw [calculate_average_nonempty _ hne, List.sum_replicate, List.length_replicate,
    nsmul_eq_mul]
  exact mul_div_cancel_left₀ t (Nat.cast_ne_zero.2 hk.ne')

/-- With no marker line the parsing loop leaves `dr_rate` untouched. -/
lemma parseSlimLoop_no_marker :
    ∀ lines : List (List Char), (∀ l ∈ lines, markerChars.isPrefixOf l = false) →
      ∀ dr, parseSlimLoop lines dr = .ok dr := by
  intro lines
  induction lines with
  | nil => intro _ dr; rfl
  | cons l rest ih =>
    intro h dr
    have hl : markerChars.isPrefixOf l = false := h l (List.mem_cons_self l rest)
    simp only [parseSlimLoop, hl, Bool.false_eq_true, if_false]
    exact ih (fun x hx => h x (List.mem_cons_of_mem l hx)) dr

/-- When every marker line is long enough, the loop returns token 7 of
the last marker line (or the initial binding when there is none). -/
lemma parseSlimLoop_last :
    ∀ lines : List (List Char),
      (∀ l ∈ lines, markerChars.isPrefixOf l = true → 8 ≤ (pyWords l).length) →
      ∀ dr, parseSlimLoop lines dr =
        .ok (((lines.filter (fun l => markerChars.isPrefixOf l)).getLast?.bind
          (fun l => (pyWords l)[7]?)).or dr) := by
  intro lines
  induction lines with
  | nil => intro _ dr; rfl
  | cons l rest ih =>
    intro h dr
    have hrest : ∀ l' ∈ rest, markerChars.isPrefixOf l' = true → 8 ≤ (pyWords l').length :=
      fun l' hl' => h l' (List.mem_cons_of_mem l hl')
    cases hb : markerChars.isPrefixOf l with
    | false =>
      simp only [parseSlimLoop, hb, Bool.false_eq_true, if_false]
      rw [ih hrest dr, List.filter_cons_of_neg (by simp [hb])]
    | true =>
      have h8 : 8 ≤ (pyWords l).length := h l (List.mem_cons_self l rest) hb
      have h7 : 7 < (pyWords l).length := by omega
      obtain ⟨t, ht⟩ : ∃ t, (pyWords l)[7]? = some t := ⟨_, List.getElem?_eq_getElem h7⟩
      simp only [parseSlimLoop, hb, if_true, ht]
      rw [ih hrest (some t), List.filter_cons_of_pos hb]
      rcases hfr : rest.filter (fun x => markerChars.isPrefixOf x) with _ | ⟨a, as⟩
      · simp [ht, Option.or]
      · rw [List.getLast?_cons_cons]
        have hne : (a :: as) ≠ [] := List.cons_ne_nil a as
        have hlast : (a :: as).getLast? = some ((a :: as).getLast hne) :=
          List.getLast?_eq_getLast _ hne
        have hmem' : (a :: as).getLast hne ∈ rest.filter (fun x => markerChars.isPrefixOf x) := by
          rw [hfr]
          exact List.getLast_mem hne
        have hf := List.mem_filter.1 hmem'
        have h8' : 8 ≤ (pyWords ((a :: as).getLast hne)).length :=
          hrest _ hf.1 (by simpa using hf.2)
        have h7' : 7 < (pyWords ((a :: as).getLast hne)).length := by omega
        obtain ⟨u, hu⟩ : ∃ u, (pyWords ((a :: as).getLast hne))[7]? = some u :=
          ⟨_, List.getElem?_eq_getElem h7'⟩
        rw [hlast]
        simp [hu, Option.or]

/-- The lengths of the lists built by the inner repetition loop. -/
lemma innerLoop_ok_shape {oracle : ℕ → List String → String} {d : Dict} :
    ∀ (k i : ℕ) p, innerLoop oracle d i k = .ok p →
      p.1.length = k ∧ p.2.length = k := by
  intro k
  induction k with
  | zero =>
    intro i p h
    simp only [innerLoop] at h
    cases h
    exact ⟨rfl, rfl⟩
  | succ k ih =>
    intro i p h
    simp only [innerLoop] at h
    rcases hc : configure_slim_command_line d with _ | clargs <;> simp only [hc] at h
    · exact Except.noConfusion h
    rcases hp : parse_slim (oracle i clargs) with e | parsed <;> simp only [hp] at h
    · exact Except.noConfusion h
    rcases hf : pyFloat parsed with _ | v <;> simp only [hf] at h
    · exact Except.noConfusion h
    rcases hr : innerLoop oracle d (i + 1) k with e | pr <;> simp only [hr] at h
    · exact Except.noConfusion h
    obtain ⟨dcs, tr⟩ := pr
    cases h
    obtain ⟨h1, h2⟩ := ih (i + 1) (dcs, tr) hr
    exact ⟨by simp [h1], by simp [h2]⟩

/-- Under a stub that always parses to `v`, the inner loop accumulates
`k` copies of the transformed value. -/
lemma innerLoop_stub {oracle : ℕ → List String → String} {v : ℚ}
    (hst : ∀ (i : ℕ) cl, ∃ s, parse_slim (oracle i cl) = .ok s ∧ pyFloat s = some v)
    {d : Dict} :
    ∀ (k i : ℕ) p, innerLoop oracle d i k = .ok p →
      p.1 = List.replicate k (drive_conversion_transform v) := by
  intro k
  induction k with
  | zero =>
    intro i p h
    simp only [innerLoop] at h
    cases h
    rfl
  | succ k ih =>
    intro i p h
    simp only [innerLoop] at h
    rcases hc : configure_slim_command_line d with _ | clargs <;> simp only [hc] at h
    · exact Except.noConfusion h
    obtain ⟨s, hs, hv⟩ := hst i clargs
    simp only [hs, hv] at h
    rcases hr : innerLoop oracle d (i + 1) k with e | pr <;> simp only [hr] at h
    · exact Except.noConfusion h
    obtain ⟨dcs, tr⟩ := pr
    cases h
    simp only [List.replicate_succ, List.cons.injEq, true_and]
    exact ih (i + 1) (dcs, tr) hr

/-- Everything the outer sweep loop guarantees on normal return. -/
lemma outerLoop_ok {oracle : ℕ → List String → String} :
    ∀ (ns : List ℤ) (i : ℕ) (d : Dict) res, outerLoop oracle i d ns = .ok res →
      res.results = res.inner.map calculate_average ∧
      res.inner.length = ns.length ∧
      (∀ l ∈ res.inner, l.length = 20) ∧
      res.runs.map Prod.fst = ns.flatMap (fun n => List.replicate 20 n) ∧
      res.runs.length = 20 * ns.length ∧
      res.final = ns.foldl (fun a n => dictSet a numGrnasKey (.int n)) d := by
  intro ns
  induction ns with
  | nil =>
    intro i d res h
    simp only [outerLoop] at h
    cases h
    exact ⟨rfl, rfl, by simp, rfl, rfl, rfl⟩
  | cons n rest ih =>
    intro i d res h
    simp only [outerLoop] at h
    rcases hin : innerLoop oracle (dictSet d numGrnasKey (.int n)) i 20 with e | pr <;>
      simp only [hin] at h
    · exact Except.noConfusion h
    obtain ⟨dcs, tr⟩ := pr
    rcases hout : outerLoop oracle (i + 20) (dictSet d numGrnasKey (.int n)) rest with
      e | rres <;> simp only [hout] at h
    · exact Except.noConfusion h
    cases h
    obtain ⟨hres, hinlen, hin20, hruns, hrlen, hfin⟩ := ih _ _ _ hout
    obtain ⟨hd, ht⟩ := innerLoop_ok_shape 20 i (dcs, tr) hin
    refine ⟨by simp [hres], by simp [hinlen], ?_, ?_, ?_, ?_⟩
    · intro l hl
      rcases List.mem_cons.1 hl with hl | hl
      · rw [hl]; exact hd
      · exact hin20 l hl
    · simp only [List.map_append, List.map_map, hruns, List.flatMap_cons]
      congr 1
      have hcomp : (Prod.fst ∘ fun c : List String => ((n : ℤ), c)) = fun _ => (n : ℤ) := rfl
      rw [hcomp, List.map_const', ht]
    · simp only [List.length_append, List.length_map, hrlen, ht, List.length_cons]
      ring
    · simp only [List.foldl_cons]
      exact hfin

/-- Under a stub that always parses to `v`, the sweep produces one copy
of the transformed value per sweep point. -/
lemma outerLoop_stub {oracle : ℕ → List String → String} {v : ℚ}
    (hst : ∀ (i : ℕ) cl, ∃ s, parse_slim (oracle i cl) = .ok s ∧ pyFloat s = some v) :
    ∀ (ns : List ℤ) (i : ℕ) (d : Dict) res, outerLoop oracle i d ns = .ok res →
      res.results = List.replicate ns.length (drive_conversion_transform v) := by
  intro ns
  induction ns with
  | nil =>
    intro i d res h
    simp only [outerLoop] at h
    cases h
    rfl
  | cons n rest ih =>
    intro i d res h
    simp only [outerLoop] at h
    rcases hin : innerLoop oracle (dictSet d numGrnasKey (.int n)) i 20 with e | pr <;>
      simp only [hin] at h
    · exact Except.noConfusion h
    obtain ⟨dcs, tr⟩ := pr
    rcases hout : outerLoop oracle (i + 20) (dictSet d numGrnasKey (.int n)) rest with
      e | rres <;> simp only [hout] at h
    · exact Except.noConfusion h
    cases h
    have hdcs : dcs = List.replicate 20 (drive_conversion_transform v) :=
      innerLoop_stub hst 20 i (dcs, tr) hin
    have havg : calculate_average dcs = drive_conversion_transform v := by
      rw [hdcs]
      exact calculate_average_replicate 20 (by omega) _
    simp [List.replicate_succ, havg, ih _ _ _ hout]

lemma sweepPoints_foldl_dictSet (d : Dict) :
    sweepPoints.foldl (fun a n => dictSet a numGrnasKey (.int n)) d =
      dictSet d numGrnasKey (.int 12) := by
  have hs : sweepPoints = [1, 2, 3, 4, 5, 6, 7, 8, 9, 10, 11, 12] := by decide
  rw [hs]
  simp only [List.foldl_cons, List.foldl_nil, dictSet_dictSet]

/-- Amended token-shape property of the Command Builder. -/
lemma configure_shape_parts (d : Dict) (src : String)
    (hsrc : dictGet d sourceKey = some (.str src)) (hne : src.data ≠ [])
    (hws : NoWs src)
    (hentries : ∀ p ∈ d, p.1 ≠ sourceKey → NoWs p.1 ∧ NoWs (renderArgValue p.2)) :
    ∀ L, configure_slim_command_line d = some L →
      L.length = 1 + 2 * (nonSourceEntries d).length + 1 ∧
      L.head? = some strSlim ∧ L.getLast? = some src := by
  intro L hL
  rw [configure_eq_tokens d src hsrc hne hws hentries] at hL
  cases hL
  refine ⟨?_, rfl, ?_⟩
  · rw [List.length_cons, List.length_append, entryTokens_length]
    simp only [List.length_singleton]
    omega
  · rw [show strSlim :: ((nonSourceEntries d).flatMap entryTokens ++ [src]) =
      (strSlim :: (nonSourceEntries d).flatMap entryTokens) ++ [src] from rfl]
    exact List.getLast?_concat _

/-- State-threaded form of `configure_slim_command_line`: the function
only reads `args_dict` (lines 104–111), so the dictionary it hands back
is exactly the one it received. -/
def configure_slim_command_line_eff (d : Dict) : Option (List String) × Dict :=
  match dictGet d sourceKey with
  | some (.str source) =>
    (some ((pyWords (strSlimSpace ++ argChunks d ++ source).data).map String.mk), d)
  | _ => (none, d)

/-- C1: on input with no line starting with `"PYTHON:: "`, `parse_slim`
reaches `return dr_rate` with the local never assigned, i.e. it raises
the unbound-local fault — not the designated "no matching output"
parsing error the specification demands. -/
theorem parse_slim_no_marker_unbound (s : String)
    (h : ∀ l ∈ splitLines s.data, markerChars.isPrefixOf l = false) :
    parse_slim s = .error .unboundLocal := by
  unfold parse_slim
  rw [parseSlimLoop_no_marker (splitLines s.data) h none]

/-- C1 witness: the concrete marker-free text `"hello\nworld"` raises
the unbound-local fault. -/
theorem parse_slim_no_marker_unbound_witness :
    parse_slim exampleNoMarkerText = .error .unboundLocal :=
  parse_slim_no_marker_unbound exampleNoMarkerText (by decide)

def str073 : String := "0.73"

def strG : String := "g"

/-- C2 counterexample: on `"PYTHON:: a b c d e f g 0.73 h"` the parser
does not return `"0.73"` — token index 7 of the split line is `"g"`
(`"0.73"` sits at index 8, after the `"PYTHON::"` token at index 0). -/
theorem parse_slim_example_counterexample :
    parse_slim exampleMarkerText ≠ .ok str073 := by decide

/-- C2 (amended): on `"PYTHON:: a b c d e f g 0.73 h"` the parser
returns the string `"g"`, the whitespace token at index 7. -/
theorem parse_slim_example_token : parse_slim exampleMarkerText = .ok strG := by decide

/-- The last line of the captured text that starts with the marker. -/
def lastMarkerLine (s : String) : Option (List Char) :=
  ((splitLines s.data).filter (fun l => markerChars.isPrefixOf l)).getLast?

def line1Short : String := "PYTHON:: a"

def line2Long : String := "PYTHON:: a b c d e f g h"

def strNl : String := "\n"

def shortMarkerText : String := line1Short ++ strNl ++ line2Long

/-- C3 counterexample: the input has marker lines and its last marker
line has a token at index 7 (`"g"`), yet `parse_slim` raises IndexError,
because an earlier marker line has fewer than 8 tokens. -/
theorem parse_slim_short_line_counterexample :
    (splitLines shortMarkerText.data).any (fun l => markerChars.isPrefixOf l) = true ∧
    lastMarkerLine shortMarkerText = some line2Long.data ∧
    (pyWords line2Long.data)[7]? = some ['g'] ∧
    parse_slim shortMarkerText = .error .indexError := by decide

/-- C3 (amended): when every marker-prefixed line of the input has at
least 8 whitespace tokens (and at least one such line exists),
`parse_slim` returns token index 7 of the last marker-prefixed line. -/
theorem parse_slim_last_marker (s : String) (l t : List Char)
    (hl : lastMarkerLine s = some l)
    (hlen : ∀ l' ∈ splitLines s.data,
      markerChars.isPrefixOf l' = true → 8 ≤ (pyWords l').length)
    (ht : (pyWords l)[7]? = some t) :
    parse_slim s = .ok (String.mk t) := by
  unfold parse_slim
  rw [parseSlimLoop_last (splitLines s.data) hlen none]
  unfold lastMarkerLine at hl
  rw [hl]
  simp [ht, Option.or]

def lineW1 : String := "PYTHON:: 9 8 7 6 5 4 3 2 1"

def lineW2 : String := "PYTHON:: a b c d e f g h i"

def twoMarkerText : String := lineW1 ++ strNl ++ lineW2

/-- C3 witness: on two well-formed marker lines the parser returns
token 7 of the second (last) one. -/
theorem parse_slim_last_marker_witness :
    parse_slim twoMarkerText = .ok (String.mk ['g']) :=
  parse_slim_last_marker twoMarkerText lineW2.data ['g'] (by decide) (by decide) (by decide)

/-- C4 (amended): for a mapping whose `"source"` entry is a non-empty
whitespace-free string and whose other keys and rendered values are
whitespace-free, the Command Builder yields `slim`, then the pair
`-d NAME=VALUE` per non-source entry in order (booleans rendered as
exactly `T`/`F`), then the source path: `1 + 2 * N + 1` tokens with the
source as the final token. -/
theorem configure_token_shape (d : Dict) (src : String)
    (hsrc : dictGet d sourceKey = some (.str src)) (hne : src.data ≠ [])
    (hws : NoWs src)
    (hentries : ∀ p ∈ d, p.1 ≠ sourceKey → NoWs p.1 ∧ NoWs (renderArgValue p.2)) :
    configure_slim_command_line d =
      some (strSlim :: ((nonSourceEntries d).flatMap entryTokens ++ [src])) ∧
    (∀ L, configure_slim_command_line d = some L →
      L.length = 1 + 2 * (nonSourceEntries d).length + 1 ∧
      L.head? = some strSlim ∧ L.getLast? = some src) ∧
    (∀ b : Bool, renderArgValue (.bool b) = if b then strT else strF) :=
  ⟨configure_eq_tokens d src hsrc hne hws hentries,
   configure_shape_parts d src hsrc hne hws hentries,
   fun _ => rfl⟩

/-- C4 witness: a concrete mapping with an int and a bool entry yields
the six expected tokens. -/
theorem configure_token_shape_witness :
    configure_slim_command_line dGood =
      some (strSlim :: ((nonSourceEntries dGood).flatMap entryTokens ++ [srcFile])) ∧
    (∀ L, configure_slim_command_line dGood = some L →
      L.length = 1 + 2 * (nonSourceEntries dGood).length + 1 ∧
      L.head? = some strSlim ∧ L.getLast? = some srcFile) ∧
    (∀ b : Bool, renderArgValue (.bool b) = if b then strT else strF) :=
  configure_token_shape dGood srcFile (by decide) (by decide) (by decide) (by decide)

def strMy : String := "my"

def strFileOnly : String := "file.slim"

/-- C4 counterexample: with source path `"my file.slim"` the final
`.split()` cuts the path in two, so the token list has length 3 instead
of `1 + 2*0 + 1 = 2` and does not end with the source path. -/
theorem configure_whitespace_counterexample :
    dictGet dBad sourceKey = some (.str dBadSource) ∧
    configure_slim_command_line dBad = some [strSlim, strMy, strFileOnly] ∧
    [strSlim, strMy, strFileOnly].length ≠ 1 + 2 * (nonSourceEntries dBad).length + 1 ∧
    [strSlim, strMy, strFileOnly].getLast? ≠ some dBadSource := by decide

/-- C5: the Command Builder has no side effects — the state-threaded
embedding returns the dictionary unchanged and computes the same token
list as the pure embedding. -/
theorem configure_no_side_effects :
    ∀ d : Dict, (configure_slim_command_line_eff d).2 = d ∧
      (configure_slim_command_line_eff d).1 = configure_slim_command_line d := by
  intro d
  rcases h : dictGet d sourceKey with _ | v
  · constructor <;>
      simp [configure_slim_command_line_eff, configure_slim_command_line, h]
  · rcases v with b | n | q | s <;> constructor <;>
      simp [configure_slim_command_line_eff, configure_slim_command_line, h]

/-- C6: the linear transform `(value - 0.5) / 0.5` of line 136 maps
`0.5` to exactly `0` and `1.0` to exactly `1` (both computations are
exact in IEEE doubles as well, every intermediate being representable). -/
theorem drive_conversion_transform_endpoints :
    drive_conversion_transform (0.5 : ℚ) = 0 ∧ drive_conversion_transform (1 : ℚ) = 1 := by
  constructor <;> norm_num [drive_conversion_transform]

/-- C7: on any normal return, `collect_data` has swept `NUM_GRNAS` over
exactly 1..12 in increasing order with exactly 20 process invocations
per sweep point — 240 in total — and returns the 12 per-point means in
sweep order. -/
theorem collect_data_sweep_counts (oracle : ℕ → List String → String) (d : Dict)
    (res : CollectResult) (hok : collect_data oracle d = .ok res) :
    sweepPoints = [1, 2, 3, 4, 5, 6, 7, 8, 9, 10, 11, 12] ∧
    res.runs.map Prod.fst = sweepPoints.flatMap (fun n => List.replicate 20 n) ∧
    res.runs.length = 240 ∧
    res.results.length = 12 ∧
    res.results = res.inner.map calculate_average := by
  obtain ⟨h1, h2, _, h4, h5, _⟩ := outerLoop_ok sweepPoints 0 d res hok
  refine ⟨by decide, h4, ?_, ?_, h1⟩
  · rw [h5]
    decide
  · rw [h1, List.length_map, h2]
    decide

/-- C7 witness: the constant stub run makes all 240 invocations and
returns 12 means. -/
theorem collect_data_sweep_counts_witness :
    sweepPoints = [1, 2, 3, 4, 5, 6, 7, 8, 9, 10, 11, 12] ∧
    collectConstResult.runs.map Prod.fst = sweepPoints.flatMap (fun n => List.replicate 20 n) ∧
    collectConstResult.runs.length = 240 ∧
    collectConstResult.results.length = 12 ∧
    collectConstResult.results = collectConstResult.inner.map calculate_average :=
  collect_data_sweep_counts oracleConst dSourceOnly collectConstResult collectConstEval

/-- C8: when process runner and parser are stubbed so that every
repetition parses to the fixed value `v`, `collect_data` returns 12
identical means, each exactly `(v - 0.5) / 0.5`. -/
theorem collect_data_constant_stub (oracle : ℕ → List String → String) (v : ℚ) (d : Dict)
    (res : CollectResult)
    (hst : ∀ (i : ℕ) cl, ∃ s, parse_slim (oracle i cl) = .ok s ∧ pyFloat s = some v)
    (hok : collect_data oracle d = .ok res) :
    res.results = List.replicate 12 (drive_conversion_transform v) := by
  have h := outerLoop_stub hst sweepPoints 0 d res hok
  rwa [show sweepPoints.length = 12 from by decide] at h

/-- C8 witness: the stub that always prints `0.75` in field 7 yields 12
copies of `(0.75 - 0.5)/0.5 = 0.5`. -/
theorem collect_data_constant_stub_witness :
    collectConstResult.results = List.replicate 12 (drive_conversion_transform (3 / 4 : ℚ)) :=
  collect_data_constant_stub oracleConst (3 / 4 : ℚ) dSourceOnly collectConstResult
    (fun _ _ => ⟨str075, (by decide : parse_slim stubOut = Except.ok str075),
      by with_unfolding_all rfl⟩) collectConstEval

/-- C9: `calculate_average` returns sum over count for a non-empty list
and `0` for the empty list, and the empty branch is unreachable from the
Aggregator: every list it averages has exactly 20 elements. -/
theorem calculate_average_spec :
    (∀ l : List ℚ, l ≠ [] → calculate_average l = l.sum / (l.length : ℚ)) ∧
    calculate_average ([] : List ℚ) = 0 ∧
    (∀ (oracle : ℕ → List String → String) (d : Dict) res,
      collect_data oracle d = .ok res → ∀ l ∈ res.inner, l.length = 20 ∧ l ≠ []) := by
  refine ⟨calculate_average_nonempty, rfl, ?_⟩
  intro oracle d res hok l hl
  obtain ⟨_, _, h20, _, _, _⟩ := outerLoop_ok sweepPoints 0 d res hok
  have h := h20 l hl
  refine ⟨h, ?_⟩
  apply List.ne_nil_of_length_pos
  omega

def oneTwo : List ℚ := [1, 2]

/-- C9 witness: the mean formula at `[1, 2]`, the empty-list default,
and the 20-element inner lists of the concrete stub run. -/
theorem calculate_average_spec_witness :
    calculate_average oneTwo = oneTwo.sum / (oneTwo.length : ℚ) ∧
    calculate_average ([] : List ℚ) = 0 ∧
    (∀ l ∈ collectConstResult.inner, l.length = 20 ∧ l ≠ []) :=
  ⟨calculate_average_spec.1 oneTwo (by simp [oneTwo]),
   calculate_average_spec.2.1,
   calculate_average_spec.2.2 oracleConst dSourceOnly collectConstResult collectConstEval⟩

/-- C10: on any normal return of `collect_data` the only entry of the
mapping that was added or changed is `'NUM_GRNAS'`, whose final value is
12; every other key reads exactly as before the call. -/
theorem collect_data_frame (oracle : ℕ → List String → String) (d : Dict)
    (res : CollectResult) (hok : collect_data oracle d = .ok res) :
    res.final = dictSet d numGrnasKey (.int 12) ∧
    dictGet res.final numGrnasKey = some (.int 12) ∧
    (∀ k, k ≠ numGrnasKey → dictGet res.final k = dictGet d k) := by
  obtain ⟨_, _, _, _, _, hfin⟩ := outerLoop_ok sweepPoints 0 d res hok
  have hf : res.final = dictSet d numGrnasKey (.int 12) := by
    rw [hfin, sweepPoints_foldl_dictSet]
  refine ⟨hf, ?_, ?_⟩
  · rw [hf]
    exact dictGet_dictSet_same d numGrnasKey (.int 12)
  · intro k hk
    rw [hf]
    exact dictGet_dictSet_ne d (.int 12) hk

/-- C10 witness: the concrete stub run ends with `NUM_GRNAS = 12`
appended and the `source` entry untouched. -/
theorem collect_data_frame_witness :
    collectConstResult.final = dictSet dSourceOnly numGrnasKey (.int 12) ∧
    dictGet collectConstResult.final numGrnasKey = some (.int 12) ∧
    (∀ k, k ≠ numGrnasKey → dictGet collectConstResult.final k = dictGet dSourceOnly k) :=
  collect_data_frame oracleConst dSourceOnly collectConstResult collectConstEval
